import Mathlib

/-!
# Verification of the S&P 500 backtesting pipeline

Shallow embedding of the core pipeline of `scripts/preprocessing.py`,
`scripts/create_signal.py` and `scripts/backtester.py`.

Conventions of the embedding:
* Prices and returns are exact rationals (`ℚ`); pandas `NaN` is `Option.none`.
* A calendar month-end date is a natural number `yyyymm` (e.g. `200801` for
  2008-01-31); the monthly table only ever holds month-end dates, so the
  source's full-date comparisons against `2008-01-01 ≤ d ≤ 2009-12-31`
  coincide with `200801 ≤ d ∧ d ≤ 200912` at this granularity.
* Tickers are encoded as natural numbers, ordered as their names are.
* A pandas frame indexed by `(date, ticker)` is a list of rows; `sort_index()`
  is an insertion sort by the lexicographic key `(date, ticker)`.
-/

/-- A row of the monthly price table after resampling to month-ends and after
the price sanity filter `0.1 ≤ price ≤ 10000` (rows failing the filter are
dropped, so `price` is never missing here), mirroring
`preprocessing.py` lines 22-27. -/
structure PriceRow where
  date : Nat
  ticker : Nat
  price : ℚ
deriving DecidableEq

/-- A row of the monthly table once the two return columns
`monthly_past_return` and `monthly_future_return` have been added
(`preprocessing.py` lines 33-36). A `none` entry is a pandas `NaN`. -/
structure RetRow where
  date : Nat
  ticker : Nat
  price : ℚ
  pastRet : Option ℚ
  futureRet : Option ℚ
deriving DecidableEq

/-- Lexicographic order on `(date, ticker)` used by `sort_index()`
(`preprocessing.py` line 30). -/
def rowLe (a b : PriceRow) : Bool :=
  (a.date < b.date) || (a.date == b.date && a.ticker ≤ b.ticker)

/-- Insert a row into a `(date, ticker)`-sorted list. -/
def insertRow (a : PriceRow) : List PriceRow → List PriceRow
  | [] => [a]
  | b :: bs => if rowLe a b then a :: b :: bs else b :: insertRow a bs

/-- `sort_index()`: sort the monthly table by `(date, ticker)`
(`preprocessing.py` line 30). -/
def sortTable (df : List PriceRow) : List PriceRow :=
  df.foldr insertRow []

/-- First (most recent) price recorded for ticker `t` in the accumulator. -/
def lookupLast (acc : List (Nat × ℚ)) (t : Nat) : Option ℚ :=
  (acc.find? (fun p => p.1 == t)).map Prod.snd

/-- `groupby('ticker')['price'].pct_change()` (`preprocessing.py` line 33),
keeping each percentage change attached to its row, in table order.  The
accumulator holds, for each ticker, the price of its most recent earlier row;
a row with no earlier same-ticker row gets `none` (pandas `NaN`). -/
def pastCol (acc : List (Nat × ℚ)) : List PriceRow → List (PriceRow × Option ℚ)
  | [] => []
  | r :: rs =>
      (r, (lookupLast acc r.ticker).map (fun q => r.price / q - 1)) ::
        pastCol ((r.ticker, r.price) :: acc) rs

/-- `.shift(-1)` applied to the per-ticker `pct_change` column
(`preprocessing.py` line 36).  The shift is positional over the WHOLE
`(date, ticker)`-sorted table, not per ticker: row `i`'s
`monthly_future_return` is row `i+1`'s `monthly_past_return`, whatever
ticker row `i+1` belongs to, and the global last row gets `NaN`. -/
def attachFuture : List (PriceRow × Option ℚ) → List RetRow
  | [] => []
  | (r, p) :: rest =>
      { date := r.date, ticker := r.ticker, price := r.price, pastRet := p,
        futureRet := match rest with
                     | [] => none
                     | (_, p2) :: _ => p2 } :: attachFuture rest

/-- Return computation (`preprocessing.py` lines 30-36): sort, per-ticker
`pct_change`, then the global `shift(-1)` for the future-return column. -/
def computeReturns (df : List PriceRow) : List RetRow :=
  attachFuture (pastCol [] (sortTable df))

/-- The crisis carve-out window: month-end dates from 2008-01 to 2009-12
inclusive (`preprocessing.py` line 44). -/
def inCrisis (d : Nat) : Bool :=
  (200801 ≤ d) && (d ≤ 200912)

/-- The outlier test of `preprocessing.py` lines 49-50 and 57-58: a present
return strictly above `1` or strictly below `-0.5`.  A missing value is not
an outlier (pandas comparisons with `NaN` are `False`). -/
def isOutlier : Option ℚ → Bool
  | none => false
  | some v => if 1 < v then true else if v < -(1/2) then true else false

/-- Outlier suppression on one row: a non-crisis row has each outlying
return overwritten to `NaN`; a crisis row is untouched. -/
def suppressRow (r : RetRow) : RetRow :=
  if inCrisis r.date then r
  else { r with
         pastRet := if isOutlier r.pastRet then none else r.pastRet,
         futureRet := if isOutlier r.futureRet then none else r.futureRet }

/-- Outlier suppression (`preprocessing.py` lines 38-61).  The source loops
over tickers and writes `NaN` through a non-crisis mask; the net effect on
every row is exactly `suppressRow`, row by row. -/
def suppress (df : List RetRow) : List RetRow :=
  df.map suppressRow

/-- Forward fill of `monthly_past_return` per ticker (`preprocessing.py`
line 65): a missing past return takes the most recent present past return of
the same ticker, if any.  (`price` is also `ffill`ed by line 64, but `price`
has no missing values at this stage, so that fill is the identity and the
embedding keeps `price : ℚ`.)  `monthly_future_return` is never filled. -/
def ffillAux (acc : List (Nat × ℚ)) : List RetRow → List RetRow
  | [] => []
  | r :: rs =>
      match r.pastRet with
      | some v => r :: ffillAux ((r.ticker, v) :: acc) rs
      | none =>
          match lookupLast acc r.ticker with
          | some v => { r with pastRet := some v } :: ffillAux acc rs
          | none => r :: ffillAux acc rs

/-- Forward fill of the past-return column per ticker (`preprocessing.py`
lines 64-65). -/
def ffill (df : List RetRow) : List RetRow :=
  ffillAux [] df

/-- The whole preprocessing pipeline of `preprocess_prices`
(`preprocessing.py` lines 30-71), starting from the monthly, price-filtered
table: compute returns, suppress outliers, forward-fill, drop rows whose
future return is missing (line 68), then drop rows with any remaining
missing field (line 71). -/
def preprocess (df : List PriceRow) : List RetRow :=
  let supp := suppress (computeReturns df)
  let filled := ffill supp
  let dropped := filled.filter (fun r => r.futureRet.isSome)
  dropped.filter (fun r => r.pastRet.isSome && r.futureRet.isSome)

/-- Number of `true` entries in a boolean column (pandas `sum` of a boolean
series counts the `True`s). -/
def countTrue (l : List Bool) : Nat :=
  (l.filter (fun b => b)).length

/-- The rank of position `i` in `nlargest` order inside one month's
cross-section `g` of `average_return_1y` values: the number of positions
that come strictly before `i` when rows are ordered by value descending
with ties broken by original row order (pandas `nlargest` with its default
`keep='first'`), `create_signal.py` line 25. -/
def rankOf (g : List ℚ) (i : Nat) : Nat :=
  ((List.range g.length).filter (fun j =>
    decide (g.getD i 0 < g.getD j 0) ||
      (decide (g.getD j 0 = g.getD i 0) && decide (j < i)))).length

/-- `get_top_20_signal` (`create_signal.py` lines 19-28) on one month's
cross-section, represented by its column of `average_return_1y` values in
row order: with fewer than 20 rows every row is flagged; otherwise exactly
the rows of `nlargest(20)` rank are flagged. -/
def top20Signal (g : List ℚ) : List Bool :=
  if g.length < 20 then List.replicate g.length true
  else (List.range g.length).map (fun i => decide (rankOf g i < 20))

/-- A row of the signalled table handed to `backtest` (`backtester.py`):
after preprocessing every return is present, so `futureRet` is a plain
rational here, and `signal` is the boolean column added by
`create_signal`. -/
structure SigRow where
  date : Nat
  ticker : Nat
  futureRet : ℚ
  signal : Bool
deriving DecidableEq

/-- Per-record PnL (`backtester.py` line 15): the boolean signal is coerced
to `1`/`0` and multiplied by the row's `monthly_future_return`. -/
def pnlRow (r : SigRow) : ℚ :=
  (if r.signal then 1 else 0) * r.futureRet

/-- `groupby('date')['pnl'].sum()` (`backtester.py` line 18) at month `d`. -/
def strategyPnl (df : List SigRow) (d : Nat) : ℚ :=
  ((df.filter (fun r => r.date == d)).map pnlRow).sum

/-- `groupby('date')['signal'].sum()` (`backtester.py` line 21) at month
`d`: booleans again count as `1`/`0`. -/
def signalSum (df : List SigRow) (d : Nat) : ℚ :=
  ((df.filter (fun r => r.date == d)).map
    (fun r => if r.signal then (1 : ℚ) else 0)).sum

/-- Per-month strategy return (`backtester.py` line 22). -/
def strategyReturn (df : List SigRow) (d : Nat) : ℚ :=
  strategyPnl df d / signalSum df d

/-- The distinct months of the signalled table, i.e. the index of the
`groupby('date')` aggregates. -/
def datesOf (df : List SigRow) : List Nat :=
  (df.map (fun r => r.date)).dedup

/-- A row of the preprocessed benchmark table (`preprocess_sp500`): the
`monthly_return` column is `NaN` at the first month, hence an `Option`. -/
structure BenchRow where
  date : Nat
  ret : Option ℚ
deriving DecidableEq

/-- `sp500_df['monthly_return'].dropna()` (`backtester.py` line 25): the
benchmark return series as `(date, return)` pairs. -/
def benchmarkReturns (sp : List BenchRow) : List (Nat × ℚ) :=
  sp.filterMap (fun r => r.ret.map (fun v => (r.date, v)))

/-- The months of the benchmark return series. -/
def benchDates (sp : List BenchRow) : List Nat :=
  (benchmarkReturns sp).map Prod.fst

/-- The benchmark return at month `d` (series lookup; months of
`benchmarkReturns` are the only ones ever looked up). -/
def benchRetAt (sp : List BenchRow) (d : Nat) : ℚ :=
  match (benchmarkReturns sp).find? (fun p => p.1 == d) with
  | some p => p.2
  | none => 0

/-- The benchmark PnL series (`backtester.py` lines 26-27): a constant
signal of `20` units times the benchmark monthly return, for every month of
the benchmark series, with no reference to the strategy table. -/
def benchmarkPnl (sp : List BenchRow) : List (Nat × ℚ) :=
  (benchmarkReturns sp).map (fun p => (p.1, 20 * p.2))

/-- `strategy_returns.index.intersection(benchmark_returns.index)`
(`backtester.py` line 30): the months present in both series. -/
def commonDates (df : List SigRow) (sp : List BenchRow) : List Nat :=
  (datesOf df).filter (fun d => (benchDates sp).contains d)

/-- Running cumulative sum with accumulator `acc` (`cumsum`). -/
def cumsumAux (acc : ℚ) : List ℚ → List ℚ
  | [] => []
  | x :: xs => (acc + x) :: cumsumAux (acc + x) xs

/-- `.cumsum()` of a series (`backtester.py` lines 37-38). -/
def cumsum (l : List ℚ) : List ℚ :=
  cumsumAux 0 l

/-- Aligned per-month strategy PnL series (`backtester.py` line 32). -/
def alignedStrategyPnl (df : List SigRow) (sp : List BenchRow) : List ℚ :=
  (commonDates df sp).map (strategyPnl df)

/-- Aligned per-month benchmark PnL series (`backtester.py` line 34). -/
def alignedBenchmarkPnl (df : List SigRow) (sp : List BenchRow) : List ℚ :=
  (commonDates df sp).map (fun d => 20 * benchRetAt sp d)

/-- `strategy_total_return = strategy_returns.sum()` over the aligned
window (`backtester.py` line 41). -/
def strategyTotalReturn (df : List SigRow) (sp : List BenchRow) : ℚ :=
  ((commonDates df sp).map (strategyReturn df)).sum

/-- `benchmark_total_return = benchmark_returns.sum()` over the aligned
window (`backtester.py` line 42). -/
def benchmarkTotalReturn (df : List SigRow) (sp : List BenchRow) : ℚ :=
  ((commonDates df sp).map (benchRetAt sp)).sum

/-- `strategy_total_pnl = strategy_cumulative_pnl.iloc[-1]`
(`backtester.py` line 45): the final value of the running cumulative PnL
sum (`iloc[-1]` needs a nonempty aligned window; the default is never used
then). -/
def strategyTotalPnl (df : List SigRow) (sp : List BenchRow) : ℚ :=
  (cumsum (alignedStrategyPnl df sp)).getLastD 0

/-- `benchmark_total_pnl = benchmark_cumulative_pnl.iloc[-1]`
(`backtester.py` line 46). -/
def benchmarkTotalPnl (df : List SigRow) (sp : List BenchRow) : ℚ :=
  (cumsum (alignedBenchmarkPnl df sp)).getLastD 0

/-- Outperformance (`backtester.py` line 59): strategy total return minus
benchmark total return. -/
def outperformance (df : List SigRow) (sp : List BenchRow) : ℚ :=
  strategyTotalReturn df sp - benchmarkTotalReturn df sp

/-- The monthly series of one ticker inside a returns table: its rows in
table order (within one ticker that is ascending date order, since the
table is `(date, ticker)`-sorted). -/
def seriesOf (k : Nat) (rows : List RetRow) : List RetRow :=
  rows.filter (fun r => r.ticker == k)

/-- Reference single-series `pct_change`: given the previous price of the
series (if any) and the series' prices in order, the percentage change of
each record.  This is the spec's per-ticker trailing-return recurrence
`trailing_return[t] = price[t]/price[t-1] - 1`, `NaN` at the first
record. -/
def pctSingle (prev : Option ℚ) : List ℚ → List (Option ℚ)
  | [] => []
  | p :: ps => (prev.map (fun q => p / q - 1)) :: pctSingle (some p) ps

/-- Position `j` comes strictly before position `i` in the stable
descending order used by `nlargest` (value descending, ties by original
row order). -/
def nlBefore (g : List ℚ) (j i : Nat) : Prop :=
  g.getD i 0 < g.getD j 0 ∨ (g.getD j 0 = g.getD i 0 ∧ j < i)

instance (g : List ℚ) (j i : Nat) : Decidable (nlBefore g j i) :=
  inferInstanceAs (Decidable (_ ∨ _))

/-- Two tickers `0` and `1` over the months 2010-01 and 2010-02, with
monthly prices `0 : [10, 11]` and `1 : [100, 150]`. -/
def exDf1 : List PriceRow :=
  [⟨201001, 0, 10⟩, ⟨201001, 1, 100⟩, ⟨201002, 0, 11⟩, ⟨201002, 1, 150⟩]

/-- One ticker with monthly prices `[1, 4, 10, 10]` over 2009-11, 2009-12,
2010-01, 2010-02: the `+300%` move into 2009-12 is inside the crisis
window, the `+150%` move into 2010-01 is outside it. -/
def exDf3 : List PriceRow :=
  [⟨200911, 0, 1⟩, ⟨200912, 0, 4⟩, ⟨201001, 0, 10⟩, ⟨201002, 0, 10⟩]

/-- A returns-table row dated inside the crisis window with both returns
far outside `[-0.5, 1]`. -/
def crisisRow : RetRow := ⟨200806, 3, 50, some 7, some (-5)⟩

/-- One ticker, two months, prices `[10, 20]`. -/
def wdf8 : List PriceRow := [⟨201001, 0, 10⟩, ⟨201002, 0, 20⟩]

/-- The first record `computeReturns` produces on `wdf8`. -/
def wrowA : RetRow := ⟨201001, 0, 10, none, some ((20 : ℚ) / 10 - 1)⟩

/-- The second record `computeReturns` produces on `wdf8`. -/
def wrowB : RetRow := ⟨201002, 0, 20, some ((20 : ℚ) / 10 - 1), none⟩

/-- A 21-ticker cross-section with strictly descending rolling-average
returns. -/
def g21 : List ℚ :=
  [20, 19, 18, 17, 16, 15, 14, 13, 12, 11, 10, 9, 8, 7, 6, 5, 4, 3, 2, 1, 0]

/-- A one-row signalled table for month `3`. -/
def wdf10 : List SigRow := [⟨3, 7, 0, true⟩]

/-- A one-month signalled table: month `5`, one selected ticker. -/
def wdf7 : List SigRow := [⟨5, 0, 1, true⟩]

/-- A benchmark series with a return at month `5` only. -/
def wsp7 : List BenchRow := [⟨5, some 1⟩]

/-- A benchmark table whose month `2` has the spec's scenario return
`0.02`. -/
def wsp9 : List BenchRow := [⟨1, none⟩, ⟨2, some (2 / 100)⟩]

/-- Forward fill never touches the future-return column. -/
lemma ffillAux_map_future (rows : List RetRow) :
    ∀ acc, (ffillAux acc rows).map (fun r => r.futureRet)
      = rows.map (fun r => r.futureRet) := by
  induction rows with
  | nil => intro acc; rfl
  | cons r rs ih =>
      intro acc
      cases hp : r.pastRet with
      | some v => simp [ffillAux, hp, ih]
      | none =>
          cases hl : lookupLast acc r.ticker with
          | some v => simp [ffillAux, hp, hl, ih]
          | none => simp [ffillAux, hp, hl, ih]

/-- C4: a record dated inside the crisis window 2008-01-01..2009-12-31 is
never modified by the outlier-suppression step, however far its trailing or
forward return lies outside `[-0.5, 1]`: the row the suppression step
produces at its position is the row the return-computation step put
there. -/
theorem crisis_rows_untouched_by_suppression (rows : List RetRow) (i : Nat)
    (r : RetRow) (hget : rows[i]? = some r) (hc : inCrisis r.date = true) :
    (suppress rows)[i]? = some r := by
  simp [suppress, List.getElem?_map, hget, suppressRow, hc]

/-- C4 witness: a crisis-window row with trailing return `7` and forward
return `-5` survives suppression unchanged. -/
theorem crisis_rows_untouched_by_suppression_witness :
    [crisisRow][0]? = some crisisRow ∧ inCrisis crisisRow.date = true ∧
      (suppress [crisisRow])[0]? = some crisisRow :=
  ⟨rfl, by decide,
    crisis_rows_untouched_by_suppression [crisisRow] 0 crisisRow rfl (by decide)⟩

/-- C5: the per-ticker forward fill rewrites only the trailing-return
column — the forward-return column is carried through unchanged (missing
forward returns are never filled) — and after the two dropping steps the
preprocessed table has no missing value left: every surviving record has
both its trailing and its forward return present. -/
theorem ffill_preserves_future_and_output_complete (df : List PriceRow)
    (rows : List RetRow) :
    (ffill rows).map (fun r => r.futureRet) = rows.map (fun r => r.futureRet) ∧
      ((preprocess df).all (fun r => r.pastRet.isSome && r.futureRet.isSome))
        = true := by
  refine ⟨ffillAux_map_future rows [], ?_⟩
  simp only [preprocess, List.all_eq_true]
  intro r hr
  exact (List.mem_filter.mp hr).2

/-- Per-month PnL sum restricted to a month equals the sum of forward
returns over the selected rows of that month. -/
lemma strategyPnl_eq_selected_sum (df : List SigRow) (d : Nat) :
    strategyPnl df d
      = ((df.filter (fun r => r.date == d && r.signal)).map
          (fun r => r.futureRet)).sum := by
  unfold strategyPnl
  induction df with
  | nil => rfl
  | cons r rs ih =>
      cases hd : (r.date == d) <;> cases hs : r.signal <;>
        simp [List.filter_cons, hd, hs, pnlRow, ih]

/-- Per-month signal sum equals the number of selected rows of that
month. -/
lemma signalSum_eq_selected_count (df : List SigRow) (d : Nat) :
    signalSum df d
      = ((df.filter (fun r => r.date == d && r.signal)).length : ℚ) := by
  unfold signalSum
  induction df with
  | nil => rfl
  | cons r rs ih =>
      cases hd : (r.date == d) <;> cases hs : r.signal <;>
        simp [List.filter_cons, hd, hs, ih, add_comm]

/-- C6: per-record PnL is the 1/0-coerced signal times the record's stored
forward return (so an unselected record contributes nothing), the
per-month strategy PnL is the sum of per-record PnL over the month's rows,
and the per-month strategy return is that PnL divided by the number of
selected rows of the month. -/
theorem strategy_return_equal_weight (df : List SigRow) (d : Nat) :
    (∀ r : SigRow, pnlRow r = (if r.signal then r.futureRet else 0)) ∧
      strategyPnl df d
        = ((df.filter (fun r => r.date == d && r.signal)).map
            (fun r => r.futureRet)).sum ∧
      signalSum df d
        = ((df.filter (fun r => r.date == d && r.signal)).length : ℚ) ∧
      strategyReturn df d
        = ((df.filter (fun r => r.date == d && r.signal)).map
            (fun r => r.futureRet)).sum
          / ((df.filter (fun r => r.date == d && r.signal)).length : ℚ) := by
  refine ⟨?_, strategyPnl_eq_selected_sum df d, signalSum_eq_selected_count df d, ?_⟩
  · intro r; cases hs : r.signal <;> simp [pnlRow, hs]
  · rw [strategyReturn, strategyPnl_eq_selected_sum, signalSum_eq_selected_count]

/-- C9: every entry of the benchmark PnL series is the fixed unit size `20`
times the benchmark monthly return of that month — the strategy table does
not enter the computation at all — and a month with benchmark return
`0.02` gets benchmark PnL `0.4`. -/
theorem benchmark_pnl_twenty_times_return (sp : List BenchRow) :
    benchmarkPnl sp = (benchmarkReturns sp).map (fun p => (p.1, 20 * p.2)) ∧
      (∀ d v, (d, v) ∈ benchmarkReturns sp → (d, 20 * v) ∈ benchmarkPnl sp) ∧
      (∀ d, (d, (2 : ℚ) / 100) ∈ benchmarkReturns sp →
        (d, (2 : ℚ) / 5) ∈ benchmarkPnl sp) := by
  refine ⟨rfl, ?_, ?_⟩
  · intro d v hm
    exact List.mem_map.mpr ⟨(d, v), hm, rfl⟩
  · intro d hm
    have h : ((2 : ℚ) / 5) = 20 * ((2 : ℚ) / 100) := by norm_num
    rw [h]
    exact List.mem_map.mpr ⟨(d, (2 : ℚ) / 100), hm, rfl⟩

/-- C9 witness: in a benchmark series whose month `2` has return `0.02`,
month `2`'s benchmark PnL entry is `0.4 = 20 × 0.02`. -/
theorem benchmark_pnl_twenty_times_return_witness :
    ((2 : Nat), (2 : ℚ) / 100) ∈ benchmarkReturns wsp9 ∧
      ((2 : Nat), (2 : ℚ) / 5) ∈ benchmarkPnl wsp9 :=
  ⟨by simp [benchmarkReturns, wsp9],
    (benchmark_pnl_twenty_times_return wsp9).2.2 2
      (by simp [benchmarkReturns, wsp9])⟩

/-- The last entry of a running cumulative sum started at `acc` is `acc`
plus the series total. -/
lemma cumsumAux_getLastD (l : List ℚ) :
    ∀ acc : ℚ, (cumsumAux acc l).getLastD acc = acc + l.sum := by
  induction l with
  | nil => intro acc; simp [cumsumAux]
  | cons x xs ih =>
      intro acc
      rw [cumsumAux, List.getLastD_cons, ih (acc + x), List.sum_cons, add_assoc]

/-- The final value of a `cumsum` series is the plain sum of the series. -/
lemma cumsum_getLastD (l : List ℚ) : (cumsum l).getLastD 0 = l.sum := by
  rw [cumsum, cumsumAux_getLastD, zero_add]

/-- C7: with a nonempty aligned window, a month is kept for comparison
exactly when it occurs in both the strategy table and the benchmark return
series; each total PnL is the final value of the running cumulative PnL
sum and equals the plain (non-compounded) sum of the aligned per-month
PnLs; the strategy total return is the plain sum of the aligned per-month
strategy returns; and outperformance is the strategy total return minus
the benchmark total return. -/
theorem aligned_totals (df : List SigRow) (sp : List BenchRow)
    (hne : commonDates df sp ≠ []) :
    (∀ d, d ∈ commonDates df sp ↔
      ((∃ r ∈ df, r.date = d) ∧ d ∈ benchDates sp)) ∧
      strategyTotalPnl df sp = (alignedStrategyPnl df sp).sum ∧
      benchmarkTotalPnl df sp = (alignedBenchmarkPnl df sp).sum ∧
      strategyTotalReturn df sp
        = ((commonDates df sp).map (strategyReturn df)).sum ∧
      outperformance df sp
        = strategyTotalReturn df sp - benchmarkTotalReturn df sp := by
  refine ⟨?_, cumsum_getLastD _, cumsum_getLastD _, rfl, rfl⟩
  intro d
  simp [commonDates, datesOf, List.mem_filter, List.mem_dedup, List.mem_map,
    List.elem_iff]

/-- C7 witness: a one-month strategy table and a benchmark with the same
month overlap on that month, and the strategy total PnL is the aligned
PnL sum. -/
theorem aligned_totals_witness :
    commonDates wdf7 wsp7 ≠ [] ∧
      strategyTotalPnl wdf7 wsp7 = (alignedStrategyPnl wdf7 wsp7).sum :=
  ⟨by decide, (aligned_totals wdf7 wsp7 (by decide)).2.1⟩

/-- `pct_change` grouped by ticker touches only the subsequence of the
ticker's own rows: filtering the annotated table to ticker `k` gives the
single-series `pct_change` of `k`'s own prices, seeded with the last price
of `k` recorded in the accumulator. -/
lemma pastCol_filter_eq_pctSingle (k : Nat) (l : List PriceRow) :
    ∀ acc, ((pastCol acc l).filter (fun x => x.1.ticker == k)).map
        (fun x => x.2)
      = pctSingle (lookupLast acc k)
          ((l.filter (fun r => r.ticker == k)).map (fun r => r.price)) := by
  induction l with
  | nil => intro acc; rfl
  | cons r rs ih =>
      intro acc
      cases hb : (r.ticker == k) with
      | true =>
          have h : r.ticker = k := by simpa using hb
          have hacc : lookupLast ((r.ticker, r.price) :: acc) k
              = some r.price := by
            simp [lookupLast, List.find?, hb]
          simp only [pastCol, List.filter_cons, hb, List.map_cons, pctSingle,
            if_true]
          rw [ih ((r.ticker, r.price) :: acc), hacc, h]
      | false =>
          have hacc : lookupLast ((r.ticker, r.price) :: acc) k
              = lookupLast acc k := by
            simp [lookupLast, List.find?, hb]
          simp only [pastCol, List.filter_cons, hb, Bool.false_eq_true,
            if_false]
          rw [ih ((r.ticker, r.price) :: acc), hacc]

/-- Attaching the shifted future column changes no row's ticker, price or
past return, so filtering to a ticker and projecting to the past returns
commutes with it. -/
lemma attachFuture_filter_past (k : Nat) (xs : List (PriceRow × Option ℚ)) :
    ((attachFuture xs).filter (fun r => r.ticker == k)).map (fun r => r.pastRet)
      = (xs.filter (fun x => x.1.ticker == k)).map (fun x => x.2) := by
  induction xs with
  | nil => rfl
  | cons x rest ih =>
      obtain ⟨r, p⟩ := x
      by_cases h : r.ticker = k
      · simp [attachFuture, List.filter_cons, h, ih]
      · simp [attachFuture, List.filter_cons, h, ih]

/-- As `attachFuture_filter_past`, for the price column. -/
lemma attachFuture_filter_price (k : Nat) (xs : List (PriceRow × Option ℚ)) :
    ((attachFuture xs).filter (fun r => r.ticker == k)).map (fun r => r.price)
      = (xs.filter (fun x => x.1.ticker == k)).map (fun x => x.1.price) := by
  induction xs with
  | nil => rfl
  | cons x rest ih =>
      obtain ⟨r, p⟩ := x
      by_cases h : r.ticker = k
      · simp [attachFuture, List.filter_cons, h, ih]
      · simp [attachFuture, List.filter_cons, h, ih]

/-- `pct_change` attaches each percentage change to the row it belongs
to: the price column of the annotated rows is the original price
column. -/
lemma pastCol_filter_price (k : Nat) (l : List PriceRow) :
    ∀ acc, ((pastCol acc l).filter (fun x => x.1.ticker == k)).map
        (fun x => x.1.price)
      = (l.filter (fun r => r.ticker == k)).map (fun r => r.price) := by
  induction l with
  | nil => intro acc; rfl
  | cons r rs ih =>
      intro acc
      by_cases h : r.ticker = k
      · simp [pastCol, List.filter_cons, h, ih]
      · simp [pastCol, List.filter_cons, h, ih]

/-- Within one ticker's series of the computed returns table, the past
returns are exactly the single-series `pct_change` of that series'
prices. -/
lemma seriesOf_pastRet (df : List PriceRow) (k : Nat) :
    (seriesOf k (computeReturns df)).map (fun r => r.pastRet)
      = pctSingle none
          ((seriesOf k (computeReturns df)).map (fun r => r.price)) := by
  unfold seriesOf computeReturns
  rw [attachFuture_filter_past, attachFuture_filter_price,
    pastCol_filter_price, pastCol_filter_eq_pctSingle]
  rfl

/-- Entry `i+1` of a single-series `pct_change` is computed from the
adjacent price pair `(p, p')` at positions `i` and `i+1`. -/
lemma pctSingle_succ (ps : List ℚ) :
    ∀ (prev : Option ℚ) (i : Nat) (p p' : ℚ), ps[i]? = some p →
      ps[i + 1]? = some p' →
      (pctSingle prev ps)[i + 1]? = some (some (p' / p - 1)) := by
  induction ps with
  | nil => intro prev i p p' h; simp at h
  | cons q qs ih =>
      intro prev i p p' h h'
      cases i with
      | zero =>
          have hq : q = p := by simpa using h
          cases qs with
          | nil => simp at h'
          | cons q' qs' =>
              have hq' : q' = p' := by simpa using h'
              subst hq hq'
              simp [pctSingle]
      | succ n =>
          have h1 : qs[n]? = some p := by simpa using h
          have h2 : qs[n + 1]? = some p' := by simpa using h'
          simpa [pctSingle] using ih (some q) n p p' h1 h2

/-- The first entry of a series' `pct_change` is missing. -/
lemma pctSingle_zero (ps : List ℚ) (x : Option ℚ)
    (h : (pctSingle none ps)[0]? = some x) : x = none := by
  cases ps with
  | nil => simp [pctSingle] at h
  | cons q qs => simpa [pctSingle] using h.symm

/-- C8: in any ticker's monthly series of the computed returns table
(rows in ascending date order), the trailing return of the first record is
missing, and the trailing return of each later record `t` is exactly
`price[t] / price[t-1] - 1` for the two adjacent prices of that same
series. -/
theorem trailing_return_adjacent_price_pair (df : List PriceRow) (k : Nat) :
    (∀ r : RetRow, (seriesOf k (computeReturns df))[0]? = some r →
      r.pastRet = none) ∧
      (∀ (i : Nat) (r r' : RetRow),
        (seriesOf k (computeReturns df))[i]? = some r →
        (seriesOf k (computeReturns df))[i + 1]? = some r' →
        r'.pastRet = some (r'.price / r.price - 1)) := by
  have key := seriesOf_pastRet df k
  constructor
  · intro r h
    have h1 : ((seriesOf k (computeReturns df)).map (fun r => r.pastRet))[0]?
        = some r.pastRet := by
      simp [List.getElem?_map, h]
    rw [key] at h1
    exact pctSingle_zero _ _ h1
  · intro i r r' h h'
    have hp : ((seriesOf k (computeReturns df)).map (fun r => r.price))[i]?
        = some r.price := by
      simp [List.getElem?_map, h]
    have hp' : ((seriesOf k (computeReturns df)).map (fun r => r.price))[i + 1]?
        = some r'.price := by
      simp [List.getElem?_map, h']
    have hres := pctSingle_succ _ none i r.price r'.price hp hp'
    rw [← key] at hres
    have hpr : ((seriesOf k (computeReturns df)).map (fun r => r.pastRet))[i + 1]?
        = some r'.pastRet := by
      simp [List.getElem?_map, h']
    rw [hpr] at hres
    exact Option.some_injective _ hres

/-- C8 witness: for one ticker with prices `[10, 20]`, the second record's
trailing return is `20/10 - 1`, computed from that adjacent price pair,
and the first record's trailing return is missing. -/
theorem trailing_return_adjacent_price_pair_witness :
    (seriesOf 0 (computeReturns wdf8))[0]? = some wrowA ∧
      (seriesOf 0 (computeReturns wdf8))[1]? = some wrowB ∧
      wrowA.pastRet = none ∧
      wrowB.pastRet = some (wrowB.price / wrowA.price - 1) :=
  ⟨rfl, rfl, (trailing_return_adjacent_price_pair wdf8 0).1 wrowA rfl,
    (trailing_return_adjacent_price_pair wdf8 0).2 0 wrowA wrowB rfl rfl⟩

/-- C1 (failing): on a table with two tickers `0 : [10, 11]` and
`1 : [100, 150]` over 2010-01..2010-02, the stored forward-return column
is the per-ticker `pct_change` column shifted by one position over the
whole `(date, ticker)`-sorted table.  Hence ticker `0`'s LAST record
carries the non-missing forward return `150/100 - 1` — ticker `1`'s
trailing return, not a value computed from ticker `0`'s prices — and
ticker `0`'s FIRST record carries a missing forward return although the
same-ticker price pair `10 → 11` exists; symmetrically for ticker `1`.
This contradicts the per-ticker forward-return contract. -/
theorem forward_return_crosses_tickers :
    seriesOf 0 (computeReturns exDf1)
      = [⟨201001, 0, 10, none, none⟩,
         ⟨201002, 0, 11, some ((11 : ℚ) / 10 - 1), some ((150 : ℚ) / 100 - 1)⟩] ∧
      seriesOf 1 (computeReturns exDf1)
        = [⟨201001, 1, 100, none, some ((11 : ℚ) / 10 - 1)⟩,
           ⟨201002, 1, 150, some ((150 : ℚ) / 100 - 1), none⟩] ∧
      ((150 : ℚ) / 100 - 1) ≠ ((11 : ℚ) / 10 - 1) := by
  refine ⟨rfl, rfl, by norm_num⟩

/-- The bound the outlier rule enforces on a stored return value: present
and within `[-0.5, 1]`, or missing. -/
def retOk : Option ℚ → Bool
  | none => true
  | some v => if -(1/2) ≤ v ∧ v ≤ 1 then true else false

/-- A value the outlier test passes satisfies the bound. -/
lemma retOk_of_not_outlier (x : Option ℚ) (h : isOutlier x = false) :
    retOk x = true := by
  cases x with
  | none => rfl
  | some v =>
      have h1 : ¬1 < v := by
        intro hv
        simp only [isOutlier] at h
        rw [if_pos hv] at h
        exact Bool.noConfusion h
      have h2 : ¬v < -(1/2) := by
        intro hv
        simp only [isOutlier] at h
        rw [if_neg h1, if_pos hv] at h
        exact Bool.noConfusion h
      have hok : -(1/2) ≤ v ∧ v ≤ 1 := ⟨le_of_not_lt h2, le_of_not_lt h1⟩
      simp only [retOk]
      rw [if_pos hok]

/-- Every row the forward fill emits keeps the date, ticker, price and
forward return of a row of its input. -/
lemma ffillAux_mem_source (l : List RetRow) :
    ∀ acc r, r ∈ ffillAux acc l → ∃ r₀ ∈ l,
      r.date = r₀.date ∧ r.futureRet = r₀.futureRet := by
  induction l with
  | nil => intro acc r h; simp [ffillAux] at h
  | cons a l ih =>
      intro acc r h
      cases hp : a.pastRet with
      | some v =>
          rw [ffillAux, hp] at h
          rcases List.mem_cons.mp h with h | h
          · exact ⟨a, List.mem_cons_self a l, by rw [h], by rw [h]⟩
          · obtain ⟨r₀, hr₀, he⟩ := ih _ r h
            exact ⟨r₀, List.mem_cons_of_mem a hr₀, he⟩
      | none =>
          rw [ffillAux, hp] at h
          cases hl : lookupLast acc a.ticker with
          | some v =>
              rw [hl] at h
              rcases List.mem_cons.mp h with h | h
              · exact ⟨a, List.mem_cons_self a l, by rw [h], by rw [h]⟩
              · obtain ⟨r₀, hr₀, he⟩ := ih _ r h
                exact ⟨r₀, List.mem_cons_of_mem a hr₀, he⟩
          | none =>
              rw [hl] at h
              rcases List.mem_cons.mp h with h | h
              · exact ⟨a, List.mem_cons_self a l, by rw [h], by rw [h]⟩
              · obtain ⟨r₀, hr₀, he⟩ := ih _ r h
                exact ⟨r₀, List.mem_cons_of_mem a hr₀, he⟩

/-- Immediately after suppression every non-crisis row's returns obey the
bound. -/
lemma suppress_bounds (rows : List RetRow) :
    ((suppress rows).all fun r =>
      inCrisis r.date || (retOk r.pastRet && retOk r.futureRet)) = true := by
  rw [List.all_eq_true]
  intro r hr
  obtain ⟨r₀, _, hmap⟩ := List.mem_map.mp hr
  subst hmap
  unfold suppressRow
  cases hc : inCrisis r₀.date with
  | true => simp [hc]
  | false =>
      simp only [hc, Bool.false_eq_true, if_false, Bool.false_or]
      refine (Bool.and_eq_true _ _).mpr ⟨?_, ?_⟩
      · cases ho : isOutlier r₀.pastRet with
        | true => simp [ho, retOk]
        | false => simp [ho, retOk_of_not_outlier _ ho]
      · cases ho : isOutlier r₀.futureRet with
        | true => simp [ho, retOk]
        | false => simp [ho, retOk_of_not_outlier _ ho]

/-- C3 (amended): directly after the outlier-suppression step, every
non-crisis record's trailing and forward returns are within `[-0.5, 1]` or
missing; and in the final preprocessed table this still holds for the
forward returns (which are never forward-filled).  It does NOT survive to
the final table for trailing returns: the forward fill may propagate a
crisis-window value into a later non-crisis record (see the
counterexample). -/
theorem non_crisis_returns_bounded_after_suppression (df : List PriceRow) :
    ((suppress (computeReturns df)).all fun r =>
        inCrisis r.date || (retOk r.pastRet && retOk r.futureRet)) = true ∧
      ((preprocess df).all fun r => inCrisis r.date || retOk r.futureRet)
        = true := by
  refine ⟨suppress_bounds _, ?_⟩
  rw [List.all_eq_true]
  intro r hr
  have hr1 : r ∈ ffill (suppress (computeReturns df)) := by
    have := (List.mem_filter.mp hr).1
    exact (List.mem_filter.mp this).1
  obtain ⟨r₀, hr₀, hdate, hfut⟩ := ffillAux_mem_source _ [] r hr1
  have hall := suppress_bounds (computeReturns df)
  rw [List.all_eq_true] at hall
  have h₀ := hall r₀ hr₀
  rw [hdate, hfut]
  cases hcr : inCrisis r₀.date with
  | true => simp [hcr]
  | false =>
      rw [hcr] at h₀
      simp only [Bool.false_or, Bool.and_eq_true] at h₀
      simp [h₀.2]

/-- C3 (counterexample): on the single-ticker table with prices
`[1, 4, 10, 10]` over 2009-11..2010-02, the final preprocessed table is
`[(2009-12, trailing 3, forward 3/2), (2010-01, trailing 3, forward 0)]`:
the 2010-01 record lies outside the crisis window yet stores the trailing
return `3 ∉ [-0.5, 1]`.  Its own trailing return (`10/4 - 1 = 1.5`) was
suppressed as an outlier, and the forward fill then carried the
crisis-window value `3` from the 2009-12 record into it.  The claimed
bound therefore fails for the table the pipeline hands to the signal
builder. -/
theorem non_crisis_bound_fails_after_ffill :
    (⟨201001, 0, 10, some 3, some 0⟩ : RetRow) ∈ preprocess exDf3 ∧
      inCrisis 201001 = false ∧
      retOk (some (3 : ℚ)) = false ∧
      ¬(-(1/2) ≤ (3 : ℚ) ∧ (3 : ℚ) ≤ 1) := by
  have heval : preprocess exDf3
      = [⟨200912, 0, 4, some 3, some (3/2)⟩,
         ⟨201001, 0, 10, some 3, some 0⟩] := by
    norm_num [preprocess, computeReturns, sortTable, insertRow, rowLe, pastCol,
      attachFuture, lookupLast, suppress, suppressRow, isOutlier, inCrisis,
      ffill, ffillAux, exDf3, List.filter]
  refine ⟨?_, by decide, ?_, by norm_num⟩
  · rw [heval]
    simp
  · simp only [retOk]
    rw [if_neg (by norm_num)]

/-- Counting with a list filter over `List.range` is a `Finset` filter
cardinality. -/
lemma length_filter_range (n : Nat) (p : Nat → Bool) :
    ((List.range n).filter p).length
      = ((Finset.range n).filter (fun i => p i = true)).card := by
  induction n with
  | zero => rfl
  | succ n ih =>
      rw [List.range_succ, List.filter_append, List.length_append, ih,
        Finset.range_succ, Finset.filter_insert]
      by_cases h : p n = true
      · rw [if_pos h, Finset.card_insert_of_not_mem (by simp)]
        simp [List.filter, h]
      · rw [if_neg h]
        simp [List.filter, h]

/-- `rankOf` counts the positions that come before `i` in the stable
descending order. -/
lemma rankOf_eq_card (g : List ℚ) (i : Nat) :
    rankOf g i
      = ((Finset.range g.length).filter (fun j => nlBefore g j i)).card := by
  rw [rankOf, length_filter_range]
  congr 1
  apply Finset.filter_congr
  intro j _
  simp [nlBefore]

/-- The stable descending order is transitive. -/
lemma nlBefore_trans {g : List ℚ} {k j i : Nat} (h1 : nlBefore g k j)
    (h2 : nlBefore g j i) : nlBefore g k i := by
  rcases h1 with h1 | ⟨h1e, h1l⟩ <;> rcases h2 with h2 | ⟨h2e, h2l⟩
  · exact Or.inl (lt_trans h2 h1)
  · exact Or.inl (h2e ▸ h1)
  · exact Or.inl (lt_of_lt_of_le h2 (le_of_eq h1e.symm))
  · exact Or.inr ⟨h1e.trans h2e, lt_trans h1l h2l⟩

/-- The stable descending order is irreflexive. -/
lemma nlBefore_irrefl (g : List ℚ) (i : Nat) : ¬nlBefore g i i := by
  simp [nlBefore]

/-- Any two distinct positions are comparable in the stable descending
order. -/
lemma nlBefore_total {g : List ℚ} {i j : Nat} (h : i ≠ j) :
    nlBefore g i j ∨ nlBefore g j i := by
  rcases lt_trichotomy (g.getD i 0) (g.getD j 0) with hlt | heq | hgt
  · exact Or.inr (Or.inl hlt)
  · rcases Nat.lt_or_ge i j with hij | hij
    · exact Or.inl (Or.inr ⟨heq, hij⟩)
    · exact Or.inr (Or.inr ⟨heq.symm, lt_of_le_of_ne hij (Ne.symm h)⟩)
  · exact Or.inl (Or.inl hgt)

/-- `rankOf` is strictly monotone along the stable descending order (for
positions inside the cross-section). -/
lemma rankOf_lt_of_before {g : List ℚ} {j i : Nat} (hj : j < g.length)
    (h : nlBefore g j i) : rankOf g j < rankOf g i := by
  rw [rankOf_eq_card, rankOf_eq_card]
  apply Finset.card_lt_card
  rw [Finset.ssubset_iff_of_subset]
  · exact ⟨j, Finset.mem_filter.mpr ⟨Finset.mem_range.mpr hj, h⟩,
      fun hmem => nlBefore_irrefl g j (Finset.mem_filter.mp hmem).2⟩
  · intro k hk
    have hk' := Finset.mem_filter.mp hk
    exact Finset.mem_filter.mpr ⟨hk'.1, nlBefore_trans hk'.2 h⟩

/-- The rank of a position of the cross-section is below the
cross-section's size. -/
lemma rankOf_lt_length {g : List ℚ} {i : Nat} (hi : i < g.length) :
    rankOf g i < g.length := by
  rw [rankOf_eq_card]
  have hsub : (Finset.range g.length).filter (fun j => nlBefore g j i)
      ⊆ (Finset.range g.length).erase i := by
    intro k hk
    have hk' := Finset.mem_filter.mp hk
    refine Finset.mem_erase.mpr ⟨?_, hk'.1⟩
    intro hke
    exact nlBefore_irrefl g i (hke ▸ hk'.2)
  have := Finset.card_le_card hsub
  rw [Finset.card_erase_of_mem (Finset.mem_range.mpr hi), Finset.card_range]
    at this
  omega

/-- `rankOf` is injective on the positions of the cross-section. -/
lemma rankOf_injOn (g : List ℚ) :
    ∀ i ∈ Finset.range g.length, ∀ j ∈ Finset.range g.length,
      rankOf g i = rankOf g j → i = j := by
  intro i hi j hj he
  by_contra hne
  rcases nlBefore_total hne with h | h
  · exact absurd he
      (Nat.ne_of_lt (rankOf_lt_of_before (Finset.mem_range.mp hi) h))
  · exact absurd he.symm
      (Nat.ne_of_lt (rankOf_lt_of_before (Finset.mem_range.mp hj) h))

/-- `rankOf` permutes the positions of the cross-section. -/
lemma image_rankOf (g : List ℚ) :
    (Finset.range g.length).image (rankOf g) = Finset.range g.length := by
  apply Finset.eq_of_subset_of_card_le
  · intro x hx
    obtain ⟨i, hi, hxi⟩ := Finset.mem_image.mp hx
    exact Finset.mem_range.mpr
      (hxi ▸ rankOf_lt_length (Finset.mem_range.mp hi))
  · rw [Finset.card_image_of_injOn (fun i hi j hj => rankOf_injOn g i hi j hj)]

/-- Exactly `k` positions of the cross-section have rank below `k`, for
any `k` up to the cross-section's size. -/
lemma card_rankOf_lt (g : List ℚ) (k : Nat) (hk : k ≤ g.length) :
    ((Finset.range g.length).filter (fun i => rankOf g i < k)).card = k := by
  have himg : ((Finset.range g.length).filter
      (fun i => rankOf g i < k)).image (rankOf g)
      = ((Finset.range g.length).image (rankOf g)).filter (fun m => m < k) := by
    ext m
    simp only [Finset.mem_image, Finset.mem_filter]
    constructor
    · rintro ⟨i, ⟨hi, hlt⟩, rfl⟩
      exact ⟨⟨i, hi, rfl⟩, hlt⟩
    · rintro ⟨⟨i, hi, rfl⟩, hlt⟩
      exact ⟨i, ⟨hi, hlt⟩, rfl⟩
  rw [image_rankOf] at himg
  have hcard : ((Finset.range g.length).filter
      (fun i => rankOf g i < k)).card
      = (((Finset.range g.length).filter
          (fun i => rankOf g i < k)).image (rankOf g)).card := by
    rw [Finset.card_image_of_injOn]
    intro i hi j hj
    exact rankOf_injOn g i (Finset.filter_subset _ _ hi) j
      (Finset.filter_subset _ _ hj)
  rw [hcard, himg]
  have : (Finset.range g.length).filter (fun m => m < k) = Finset.range k := by
    ext x
    simp only [Finset.mem_filter, Finset.mem_range]
    omega
  rw [this, Finset.card_range]

/-- Counting `true`s in an all-`true` column. -/
lemma countTrue_replicate_true (n : Nat) :
    countTrue (List.replicate n true) = n := by
  induction n with
  | zero => rfl
  | succ n ih => simp [countTrue, List.replicate, List.filter] at ih ⊢

/-- Counting `true`s in a mapped boolean column counts the matching
sources. -/
lemma countTrue_map {α : Type} (f : α → Bool) (l : List α) :
    countTrue (l.map f) = (l.filter f).length := by
  induction l with
  | nil => rfl
  | cons a l ih =>
      cases hf : f a <;> simp [countTrue, List.filter, hf] at ih ⊢ <;> omega

/-- The month's signal column holds `min N 20` selected rows: all `N` rows
when the cross-section has `N < 20` rows, exactly `20` otherwise. -/
lemma countTrue_top20 (g : List ℚ) :
    countTrue (top20Signal g) = min g.length 20 := by
  unfold top20Signal
  by_cases h : g.length < 20
  · rw [if_pos h, countTrue_replicate_true]
    omega
  · rw [if_neg h, countTrue_map, length_filter_range]
    have hfe : (Finset.range g.length).filter
        (fun i => decide (rankOf g i < 20) = true)
        = (Finset.range g.length).filter (fun i => rankOf g i < 20) := by
      apply Finset.filter_congr
      intro i _
      simp
    rw [hfe, card_rankOf_lt g 20 (by omega)]
    omega

/-- The signal at an in-range position, read off the signal column. -/
lemma top20Signal_getD (g : List ℚ) (i : Nat) (hi : i < g.length) :
    (top20Signal g).getD i false
      = if g.length < 20 then true else decide (rankOf g i < 20) := by
  unfold top20Signal
  by_cases h : g.length < 20
  · rw [if_pos h, if_pos h, List.getD_eq_getElem?_getD, List.getElem?_replicate,
      if_pos hi]
    rfl
  · rw [if_neg h, if_neg h, List.getD_eq_getElem?_getD, List.getElem?_map,
      List.getElem?_range hi]
    rfl

/-- C2: in each month's cross-section of `N` rows, the signal column
selects exactly `min N 20` rows — all of them when `N < 20`, exactly `20`
otherwise — and every selected row's 12-month rolling-average return is at
least every non-selected row's (ties broken by row order inside
`nlargest`). -/
theorem top20_signal_count_and_dominance (g : List ℚ) :
    countTrue (top20Signal g) = min g.length 20 ∧
      ∀ i j : Nat, i < g.length → j < g.length →
        (top20Signal g).getD i false = true →
        (top20Signal g).getD j false = false →
        g.getD j 0 ≤ g.getD i 0 := by
  refine ⟨countTrue_top20 g, ?_⟩
  intro i j hi hj hsi hsj
  rw [top20Signal_getD g i hi] at hsi
  rw [top20Signal_getD g j hj] at hsj
  by_cases h : g.length < 20
  · rw [if_pos h] at hsj
    exact absurd hsj (by simp)
  · rw [if_neg h] at hsi hsj
    have hri : rankOf g i < 20 := by simpa using hsi
    have hrj : ¬rankOf g j < 20 := by simpa using hsj
    by_contra hlt
    have hji : nlBefore g j i := Or.inl (lt_of_not_le hlt)
    have := rankOf_lt_of_before hj hji
    omega

/-- C2 witness: a 21-row cross-section with strictly descending values
selects exactly its first 20 rows; row 0 is selected, row 20 is not, and
row 20's value is at most row 0's. -/
theorem top20_signal_count_and_dominance_witness :
    countTrue (top20Signal g21) = min g21.length 20 ∧
      g21.getD 20 0 ≤ g21.getD 0 0 :=
  ⟨(top20_signal_count_and_dominance g21).1,
    (top20_signal_count_and_dominance g21).2 0 20 (by decide) (by decide)
      (by decide) (by decide)⟩

/-- The per-month signal sum of the backtester (booleans summed as 1/0) is
the count of `true`s in the month's signal column. -/
lemma signalSum_eq_countTrue (df : List SigRow) (d : Nat) :
    signalSum df d
      = (countTrue ((df.filter (fun r => r.date == d)).map
          (fun r => r.signal)) : ℚ) := by
  unfold signalSum
  induction df with
  | nil => rfl
  | cons r rs ih =>
      cases hd : (r.date == d) <;> cases hs : r.signal <;>
        simp [List.filter_cons, hd, hs, countTrue, List.filter, ih, add_comm]

/-- C10: when a month's cross-section is nonempty, its signal column
selects `min N 20 ≥ 1` rows, so the per-month sum of signals — the divisor
of the strategy-return computation in the backtester — is never zero: the
zero-selected-tickers division the spec leaves undefined is unreachable
for signals produced by `get_top_20_signal`. -/
theorem signal_count_positive_divisor (g : List ℚ) (hg : g ≠ [])
    (df : List SigRow) (d : Nat)
    (hsig : (df.filter (fun r => r.date == d)).map (fun r => r.signal)
      = top20Signal g) :
    signalSum df d = ((min g.length 20 : Nat) : ℚ) ∧ signalSum df d ≠ 0 := by
  have hcount : signalSum df d = (countTrue (top20Signal g) : ℚ) := by
    rw [signalSum_eq_countTrue, hsig]
  have hmin : countTrue (top20Signal g) = min g.length 20 := countTrue_top20 g
  have hpos : 0 < min g.length 20 := by
    have : 0 < g.length := List.length_pos.mpr hg
    omega
  constructor
  · rw [hcount, hmin]
  · rw [hcount, hmin]
    exact_mod_cast Nat.pos_iff_ne_zero.mp hpos

/-- C10 witness: a month whose cross-section is the single value `5` has
signal sum `1 ≠ 0`. -/
theorem signal_count_positive_divisor_witness :
    signalSum wdf10 3 ≠ 0 :=
  (signal_count_positive_divisor [5] (by decide) wdf10 3 (by decide)).2
